import Mathlib

/-!
Shallow embedding of the editing core of the `lite` editor
(`lite-core/src/transaction.rs`, `lite-core/src/selection.rs`,
`lite-view/src/history.rs`, `lite-view/src/document.rs`).

Buffers (ropey `Rope` values, char-indexed) are embedded as `List Char`;
`rope.insert(pos, text)` becomes `take pos ++ text ++ drop pos` and
`rope.remove(pos..pos+n)` becomes `take pos ++ drop (pos + n)`.
All definitions follow the Rust source operation by operation.
-/

namespace Lite

/-- `Operation` from transaction.rs: retain / insert / delete. -/
inductive Operation where
  | Retain (n : Nat)
  | Insert (text : List Char)
  | Delete (n : Nat)
deriving DecidableEq

/-- `Change` from transaction.rs. The Rust field `end` is called `stop`
here because `end` is a Lean keyword. -/
structure Change where
  start : Nat
  stop : Nat
  insert : List Char
deriving DecidableEq

/-- `Change::insert(pos, text)`. -/
def Change.insert' (pos : Nat) (text : List Char) : Change :=
  { start := pos, stop := pos, insert := text }

/-- `Change::delete(start, end)`. -/
def Change.delete (start stop : Nat) : Change :=
  { start := start, stop := stop, insert := [] }

/-- `ChangeSet` from transaction.rs. -/
structure ChangeSet where
  doc_len : Nat
  ops : List Operation
deriving DecidableEq

/-- The fold inside `ChangeSet::new_len`. -/
def opsNewLen : List Operation → Nat
  | [] => 0
  | Operation.Retain n :: ops => n + opsNewLen ops
  | Operation.Insert t :: ops => t.length + opsNewLen ops
  | Operation.Delete _ :: ops => opsNewLen ops

/-- `ChangeSet::new_len`. -/
def ChangeSet.new_len (cs : ChangeSet) : Nat := opsNewLen cs.ops

/-- `ChangeSet::is_empty`: every op is a `Retain`. -/
def ChangeSet.is_empty (cs : ChangeSet) : Bool :=
  cs.ops.all fun op => match op with
    | Operation.Retain _ => true
    | _ => false

/-- `ChangeSet::from_change`: retain up to `start`, delete `start..end`,
insert the text, retain the rest; each op only when its guard holds. -/
def ChangeSet.from_change (doc_len : Nat) (c : Change) : ChangeSet :=
  { doc_len := doc_len
    ops :=
      (if 0 < c.start then [Operation.Retain c.start] else []) ++
      (if c.start < c.stop then [Operation.Delete (c.stop - c.start)] else []) ++
      (if c.insert ≠ [] then [Operation.Insert c.insert] else []) ++
      (if c.stop < doc_len then [Operation.Retain (doc_len - c.stop)] else []) }

/-- `rope.insert(pos, text)` on the list embedding. -/
def ropeInsert (l : List Char) (pos : Nat) (t : List Char) : List Char :=
  l.take pos ++ t ++ l.drop pos

/-- `rope.remove(pos..pos+n)` on the list embedding. -/
def ropeRemove (l : List Char) (pos n : Nat) : List Char :=
  l.take pos ++ l.drop (pos + n)

/-- The loop of `ChangeSet::apply`, tracking the running position. -/
def applyGo : List Operation → Nat → List Char → List Char
  | [], _, l => l
  | Operation.Retain n :: ops, pos, l => applyGo ops (pos + n) l
  | Operation.Insert t :: ops, pos, l => applyGo ops (pos + t.length) (ropeInsert l pos t)
  | Operation.Delete n :: ops, pos, l => applyGo ops pos (ropeRemove l pos n)

/-- `ChangeSet::apply`. -/
def ChangeSet.apply (cs : ChangeSet) (l : List Char) : List Char :=
  applyGo cs.ops 0 l

/-- The loop of `ChangeSet::invert`, tracking the source cursor into the
original buffer. -/
def invertGo : List Operation → Nat → List Char → List Operation
  | [], _, _ => []
  | Operation.Retain n :: ops, pos, orig => Operation.Retain n :: invertGo ops (pos + n) orig
  | Operation.Insert t :: ops, pos, orig => Operation.Delete t.length :: invertGo ops pos orig
  | Operation.Delete n :: ops, pos, orig =>
      Operation.Insert ((orig.drop pos).take n) :: invertGo ops (pos + n) orig

/-- `ChangeSet::invert`. -/
def ChangeSet.invert (cs : ChangeSet) (orig : List Char) : ChangeSet :=
  { doc_len := cs.new_len, ops := invertGo cs.ops 0 orig }

/-- The loop of `ChangeSet::map_pos`: `old`/`new` are `old_pos`/`new_pos`,
`pos` is the (mutable) argument. The loop breaks as soon as `old_pos > pos`
and the final result is `new_pos.min(pos)`. -/
def mapPosGo : List Operation → Nat → Nat → Nat → Nat
  | [], _, new, pos => min new pos
  | op :: ops, old, new, pos =>
    if pos < old then min new pos
    else
      match op with
      | Operation.Retain n => mapPosGo ops (old + n) (new + n) pos
      | Operation.Insert t =>
          mapPosGo ops old (if old ≤ pos then new + t.length else new) pos
      | Operation.Delete n =>
          mapPosGo ops (old + n) new
            (if old + n ≤ pos then pos - n else if old < pos then old else pos)

/-- `ChangeSet::map_pos`. -/
def ChangeSet.map_pos (cs : ChangeSet) (pos : Nat) : Nat :=
  mapPosGo cs.ops 0 0 pos

/-- The loop of `ChangeSet::compose`, with the two peekable iterators as
lists and the partial-consumption counters `len_a`, `len_b`.  The match
arms appear in the Rust source order (earlier arms take priority; the
Rust arms marked `unreachable!` are exactly the pairs already captured by
the earlier arms here as well).  The loop is not structurally recursive
(an iteration may consume nothing from either list when a stale counter
exceeds its op's length), so it takes a fuel argument; every terminating
execution of the Rust loop consumes at least one op per iteration, so
fuel `|ops_a| + |ops_b| + 1` replays it exactly. -/
def composeGo : Nat → List Operation → List Operation → Nat → Nat → List Operation
  | 0, _, _, _, _ => []
  | _ + 1, [], [], _, _ => []
  | fuel + 1, Operation.Insert s :: as, bs, la, lb =>
      Operation.Insert s :: composeGo fuel as bs la lb
  | fuel + 1, as, Operation.Delete n :: bs, la, lb =>
      Operation.Delete n :: composeGo fuel as bs la lb
  | fuel + 1, [], op :: bs, la, lb => op :: composeGo fuel [] bs la lb
  | fuel + 1, op :: as, [], la, lb => op :: composeGo fuel as [] la lb
  | fuel + 1, Operation.Retain a :: as, Operation.Retain b :: bs, la, lb =>
      let m := min (a - la) (b - lb)
      Operation.Retain m ::
        (if la + m = a then
          if lb + m = b then composeGo fuel as bs 0 0
          else composeGo fuel as (Operation.Retain b :: bs) 0 (lb + m)
        else
          if lb + m = b then composeGo fuel (Operation.Retain a :: as) bs (la + m) 0
          else composeGo fuel (Operation.Retain a :: as) (Operation.Retain b :: bs)
            (la + m) (lb + m))
  | fuel + 1, Operation.Retain a :: as, Operation.Insert s :: bs, la, lb =>
      Operation.Insert s :: composeGo fuel (Operation.Retain a :: as) bs la lb
  | fuel + 1, Operation.Delete n :: as, Operation.Retain r :: bs, la, lb =>
      let m := min (n - la) (r - lb)
      Operation.Delete m ::
        (if la + m = n then
          if lb + m = r then composeGo fuel as bs 0 0
          else composeGo fuel as (Operation.Retain r :: bs) 0 (lb + m)
        else
          if lb + m = r then composeGo fuel (Operation.Delete n :: as) bs (la + m) 0
          else composeGo fuel (Operation.Delete n :: as) (Operation.Retain r :: bs)
            (la + m) (lb + m))
  | fuel + 1, Operation.Delete n :: as, Operation.Insert s :: bs, la, lb =>
      Operation.Delete n :: Operation.Insert s :: composeGo fuel as bs la lb

/-- `ChangeSet::compose`: `None` when `self.new_len() != other.doc_len`,
otherwise the composed op list with `doc_len = self.doc_len`. -/
def ChangeSet.compose (c1 c2 : ChangeSet) : Option ChangeSet :=
  if c1.new_len ≠ c2.doc_len then none
  else some { doc_len := c1.doc_len
              ops := composeGo (c1.ops.length + c2.ops.length + 1) c1.ops c2.ops 0 0 }

/-- `Range` from selection.rs: anchor and head, both char indices. -/
structure Range where
  anchor : Nat
  head : Nat
deriving DecidableEq

/-- `Range::point`. -/
def Range.point (pos : Nat) : Range := { anchor := pos, head := pos }

/-- `Range::start`: min of anchor and head. -/
def Range.start (r : Range) : Nat := min r.anchor r.head

/-- `Range::end` (Lean keyword, so `stop`): max of anchor and head. -/
def Range.stop (r : Range) : Nat := max r.anchor r.head

/-- `Range::contains`. -/
def Range.containsPos (r : Range) (pos : Nat) : Bool :=
  decide (r.start ≤ pos) && decide (pos < r.stop)

/-- `Range::merge`: merge when the ranges overlap or touch. The merged
range is `Range::new(min of starts, max of ends)`. -/
def Range.merge (r other : Range) : Option Range :=
  if r.stop ≥ other.start ∧ other.stop ≥ r.start then
    some { anchor := min r.start other.start, head := max r.stop other.stop }
  else none

/-- The sort key order of `normalize`'s `sort_by_key(|r| (r.start(), r.end()))`:
lexicographic on `(start, end)`. -/
def keyLe (a b : Range) : Prop :=
  a.start < b.start ∨ (a.start = b.start ∧ a.stop ≤ b.stop)

instance : ∀ a b : Range, Decidable (keyLe a b) := fun a b => by
  unfold keyLe; infer_instance

/-- Stable insertion used to model Rust's stable `sort_by_key`: an element
inserted from the left goes before the first element it is `keyLe`-below
or equal to, hence equal keys keep their original order. -/
def insertRange (r : Range) : List Range → List Range
  | [] => [r]
  | x :: xs => if keyLe r x then r :: x :: xs else x :: insertRange r xs

/-- Stable sort by `(start, end)`, modelling `sort_by_key`. -/
def sortRanges : List Range → List Range
  | [] => []
  | x :: xs => insertRange x (sortRanges xs)

/-- The merge scan of `normalize`: fold the sorted ranges into `merged`,
merging each range into the last kept one when `Range::merge` succeeds.
The accumulator is kept reversed so its head is `merged.last_mut()`. -/
def mergeScan : List Range → List Range → List Range
  | acc, [] => acc.reverse
  | [], r :: rest => mergeScan [r] rest
  | last :: accTail, r :: rest =>
    match last.merge r with
    | some m => mergeScan (m :: accTail) rest
    | none => mergeScan (r :: last :: accTail) rest

/-- `iter().position(...)` over a range list. -/
def rangePosition (p : Range → Bool) : List Range → Option Nat
  | [] => none
  | r :: rest => if p r then some 0 else (rangePosition p rest).map (· + 1)

/-- The predicate of `normalize`'s primary-index recomputation:
`r.contains(primary_range.head) || *r == primary_range`. -/
def normPred (pr r : Range) : Bool :=
  r.containsPos pr.head || decide (r = pr)

/-- `Selection` from selection.rs. -/
structure Selection where
  ranges : List Range
  primary_idx : Nat
deriving DecidableEq

/-- `Selection::point`. -/
def Selection.point (pos : Nat) : Selection :=
  { ranges := [Range.point pos], primary_idx := 0 }

/-- `Selection::single`. -/
def Selection.single (r : Range) : Selection :=
  { ranges := [r], primary_idx := 0 }

/-- `Selection::normalize`. When the range list is empty it synthesises a
single point at 0.  Otherwise it sorts, reads
`self.ranges[self.primary_idx]` — which in Rust panics when
`primary_idx` is out of bounds, modelled here by returning `none` —
then merges and recomputes the primary index. -/
def Selection.normalize (s : Selection) : Option Selection :=
  if s.ranges.isEmpty then some { ranges := [Range.point 0], primary_idx := 0 }
  else
    let sorted := sortRanges s.ranges
    match sorted.get? s.primary_idx with
    | none => none
    | some pr =>
      let merged := mergeScan [] sorted
      some { ranges := merged, primary_idx := (rangePosition (normPred pr) merged).getD 0 }

/-- `Selection::new`: starts from `primary_idx = 0` (so the primary read
inside `normalize` is always in bounds and no panic can occur), then
clamps the requested index to `min(primary_idx, len - 1)`.  The primary
index computed by `normalize` is immediately overwritten by that clamp,
so only the sorted-and-merged ranges of `normalize` matter here. -/
def Selection.new (ranges : List Range) (pidx : Nat) : Selection :=
  match ranges with
  | [] => { ranges := [Range.point 0], primary_idx := min pidx 0 }
  | r :: rest =>
    let merged := mergeScan [] (sortRanges (r :: rest))
    { ranges := merged, primary_idx := min pidx (merged.length - 1) }

/-- `Selection::transform`. -/
def Selection.transform (s : Selection) (f : Range → Range) : Selection :=
  Selection.new (s.ranges.map f) s.primary_idx

/-- `Selection::add_cursor`: push a point range, then normalize (which can
panic, hence `Option`). -/
def Selection.add_cursor (s : Selection) (pos : Nat) : Option Selection :=
  Selection.normalize { ranges := s.ranges ++ [Range.point pos], primary_idx := s.primary_idx }

/-- `Selection::add_range`: push a range, then normalize. -/
def Selection.add_range (s : Selection) (r : Range) : Option Selection :=
  Selection.normalize { ranges := s.ranges ++ [r], primary_idx := s.primary_idx }

/-- `Selection::set_primary_idx`: clamp to `min(idx, len - 1)`. -/
def Selection.set_primary_idx (s : Selection) (idx : Nat) : Selection :=
  { s with primary_idx := min idx (s.ranges.length - 1) }

/-- `Selection::replace`: overwrite the ranges, then normalize.  The old
`primary_idx` is still in force during `normalize`'s primary read. -/
def Selection.replace (s : Selection) (ranges : List Range) : Option Selection :=
  Selection.normalize { ranges := ranges, primary_idx := s.primary_idx }

/-- Strict separation of ranges (not even touching): the relation that
holds between consecutive ranges kept by `normalize`'s merge scan. -/
def sep (a b : Range) : Prop := a.stop < b.start

instance : IsTrans Range sep :=
  ⟨fun a b c hab hbc => by
    unfold sep at *
    unfold Range.start Range.stop at *
    omega⟩

/-- `Transaction` from transaction.rs. -/
structure Transaction where
  changes : ChangeSet
  selection : Option Selection
deriving DecidableEq

/-- `Transaction::apply`. -/
def Transaction.apply (tx : Transaction) (l : List Char) : List Char :=
  tx.changes.apply l

/-- `Transaction::invert`. -/
def Transaction.invert (tx : Transaction) (orig : List Char) (origSel : Selection) : Transaction :=
  { changes := tx.changes.invert orig, selection := some origSel }

/-- `Transaction::is_empty`. -/
def Transaction.is_empty (tx : Transaction) : Bool :=
  tx.changes.is_empty

/-- `MAX_HISTORY_SIZE` from history.rs. -/
def MAX_HISTORY_SIZE : Nat := 1000

/-- `History` from history.rs.  The `Vec`s are embedded as lists with
index 0 at the front, so `Vec::push` appends, `Vec::pop` takes the last
element, and `Vec::remove(0)` drops the front. -/
structure History where
  undo_stack : List Transaction
  redo_stack : List Transaction
deriving DecidableEq

/-- `History::new`. -/
def History.new : History := { undo_stack := [], redo_stack := [] }

/-- `History::push`: clear redo, append to undo, then drop the oldest
undo entry if the bound is exceeded. -/
def History.push (h : History) (tx : Transaction) : History :=
  let u := h.undo_stack ++ [tx]
  { undo_stack := if MAX_HISTORY_SIZE < u.length then u.drop 1 else u
    redo_stack := [] }

/-- `History::push_redo`. -/
def History.push_redo (h : History) (tx : Transaction) : History :=
  { h with redo_stack := h.redo_stack ++ [tx] }

/-- `History::undo`: `Vec::pop` from the undo stack. -/
def History.undoPop (h : History) : Option Transaction × History :=
  (h.undo_stack.getLast?, { h with undo_stack := h.undo_stack.dropLast })

/-- `History::redo`: `Vec::pop` from the redo stack. -/
def History.redoPop (h : History) : Option Transaction × History :=
  (h.redo_stack.getLast?, { h with redo_stack := h.redo_stack.dropLast })

/-- `History::clear`. -/
def History.clear (_h : History) : History := History.new

/-- A `ViewId` (lite-view): an opaque numeric identifier. -/
structure ViewId where
  idNum : Nat
deriving DecidableEq

/-- `LineEnding` from document.rs. -/
inductive LineEnding where
  | LF
  | CRLF
deriving DecidableEq

/-- `Document` from document.rs (the fields the verified operations
touch).  `selections` is the `HashMap<ViewId, Selection>`, embedded as a
function to `Option Selection`; `rope` is the buffer. -/
structure Document where
  id : Nat
  rope : List Char
  path : Option String
  modified : Bool
  selections : ViewId → Option Selection
  history : History
  line_ending : LineEnding
  encoding : String
  language : Option String
  last_saved_version : Nat
  version : Nat

/-- `Document::selection`: the view's selection, or a fresh point at 0. -/
def Document.selection (d : Document) (v : ViewId) : Selection :=
  (d.selections v).getD (Selection.point 0)

/-- `Document::set_selection`. -/
def Document.set_selection (d : Document) (v : ViewId) (sel : Selection) : Document :=
  { d with selections := fun x => if x = v then some sel else d.selections x }

/-- `Document::apply`: skip empty transactions; otherwise invert against
the pre-edit buffer, apply the changes, install or remap the invoking
view's selection, push the inverse, bump the version and recompute
`modified`. -/
def Document.apply (d : Document) (tx : Transaction) (v : ViewId) : Bool × Document :=
  if tx.is_empty then (false, d)
  else
    let old_selection := d.selection v
    let inverse := tx.invert d.rope old_selection
    let d1 := { d with rope := tx.changes.apply d.rope }
    let d2 :=
      match tx.selection with
      | some sel => d1.set_selection v sel
      | none =>
          let sel := d1.selection v
          let new_sel := sel.transform fun r =>
            { anchor := tx.changes.map_pos r.anchor, head := tx.changes.map_pos r.head }
          d1.set_selection v new_sel
    let d3 := { d2 with history := d2.history.push inverse }
    let version' := d3.version + 1
    (true, { d3 with version := version'
                     modified := decide (version' ≠ d3.last_saved_version) })

/-- `Document::undo`: pop the undo stack; on `None` return `false` with
the document untouched; else invert the popped transaction against the
current buffer, apply it, install its carried selection, push the fresh
inverse with `push_redo`, and bump the version. -/
def Document.undo (d : Document) (v : ViewId) : Bool × Document :=
  match d.history.undoPop with
  | (none, _) => (false, d)
  | (some tx, h1) =>
    let d0 := { d with history := h1 }
    let old_sel := d0.selection v
    let inverse := tx.invert d0.rope old_sel
    let d1 := { d0 with rope := tx.changes.apply d0.rope }
    let d2 :=
      match tx.selection with
      | some sel => d1.set_selection v sel
      | none => d1
    let d3 := { d2 with history := d2.history.push_redo inverse }
    let version' := d3.version + 1
    (true, { d3 with version := version'
                     modified := decide (version' ≠ d3.last_saved_version) })

/-- `Document::redo`: pop the redo stack; on `None` return `false`; else
invert the popped transaction against the current buffer, apply it,
install its carried selection, and push the fresh inverse onto the undo
stack via `History::push` (which clears the redo stack), then bump the
version. -/
def Document.redo (d : Document) (v : ViewId) : Bool × Document :=
  match d.history.redoPop with
  | (none, _) => (false, d)
  | (some tx, h1) =>
    let d0 := { d with history := h1 }
    let old_sel := d0.selection v
    let inverse := tx.invert d0.rope old_sel
    let d1 := { d0 with rope := tx.changes.apply d0.rope }
    let d2 :=
      match tx.selection with
      | some sel => d1.set_selection v sel
      | none => d1
    let d3 := { d2 with history := d2.history.push inverse }
    let version' := d3.version + 1
    (true, { d3 with version := version'
                     modified := decide (version' ≠ d3.last_saved_version) })

/-- The mutating operations of `History`, for quantifying over every
sequence of history operations. -/
inductive HistOp where
  | push (tx : Transaction)
  | push_redo (tx : Transaction)
  | undoOp
  | redoOp
  | clearOp
deriving DecidableEq

/-- One `History` operation step. -/
def histStep (h : History) : HistOp → History
  | HistOp.push tx => h.push tx
  | HistOp.push_redo tx => h.push_redo tx
  | HistOp.undoOp => h.undoPop.2
  | HistOp.redoOp => h.redoPop.2
  | HistOp.clearOp => h.clear

/-- Run a sequence of `History` operations from the empty history. -/
def runHistory (ops : List HistOp) : History :=
  ops.foldl histStep History.new

/-- Fixture: a transaction inserting `'x'` at 0 into a 2-char buffer. -/
def txA : Transaction :=
  { changes := ChangeSet.from_change 2 (Change.insert' 0 ['x']), selection := none }

/-- Fixture: a transaction inserting `'y'` at 1 into a 2-char buffer. -/
def txB : Transaction :=
  { changes := ChangeSet.from_change 2 (Change.insert' 1 ['y']), selection := none }

/-- Fixture: a fresh two-character document with empty history. -/
def baseDoc : Document :=
  { id := 1, rope := ['a', 'b'], path := none, modified := false
    selections := fun _ => none, history := History.new
    line_ending := LineEnding.LF, encoding := "utf-8", language := none
    last_saved_version := 0, version := 0 }

/-- Fixture: the same document with two entries on the redo stack. -/
def docTwoRedo : Document :=
  { baseDoc with history := { undo_stack := [], redo_stack := [txA, txB] } }

end Lite

namespace Lite

/-! ## Theorems -/

/-- C2: the composition law fails on the code.  With buffer `"abcde"`,
`C1 = from_change(5, insert(2, "x"))` and `C2 = from_change(6, delete(1, 3))`
the changesets are composable (`C1.new_len() == C2.doc_len`), yet applying
the composed changeset yields `"adxe"` while applying `C1` then `C2`
yields `"acde"`. -/
theorem compose_not_sequential_eval :
    (ChangeSet.from_change 5 (Change.insert' 2 ['x'])).new_len =
      (ChangeSet.from_change 6 (Change.delete 1 3)).doc_len ∧
    ((ChangeSet.from_change 5 (Change.insert' 2 ['x'])).compose
        (ChangeSet.from_change 6 (Change.delete 1 3))).map
      (fun c => c.apply ['a', 'b', 'c', 'd', 'e']) = some ['a', 'd', 'x', 'e'] ∧
    (ChangeSet.from_change 6 (Change.delete 1 3)).apply
        ((ChangeSet.from_change 5 (Change.insert' 2 ['x'])).apply ['a', 'b', 'c', 'd', 'e']) =
      ['a', 'c', 'd', 'e'] :=
  ⟨rfl, rfl, rfl⟩

/-- C3: `Document::redo` destroys the remaining redo entries.  On a
document whose redo stack holds two transactions, one `redo` call
succeeds but leaves the redo stack empty (the fresh inverse is pushed
with `History::push`, which clears it), not with the remaining one
entry. -/
theorem redo_clears_redo_eval :
    docTwoRedo.history.redo_stack.length = 2 ∧
    (Document.redo docTwoRedo ⟨0⟩).1 = true ∧
    (Document.redo docTwoRedo ⟨0⟩).2.history.redo_stack = [] ∧
    (Document.redo docTwoRedo ⟨0⟩).2.history.undo_stack.length = 1 :=
  ⟨rfl, rfl, rfl, rfl⟩

/-- C4: `map_pos` does not follow the spec's per-op rule.  For the
changeset `from_change(11, insert(5, " beautiful"))` (ten inserted
characters) and `pos = 7`, the rule demands `7 + 10 = 17`, but the code
returns `7` (the final `new_pos.min(pos)` caps the result at `pos`).
For `from_change(11, delete(5, 8))` and `pos = 10` the rule demands
`10 - 3 = 7`, but the code returns `5`. -/
theorem map_pos_rule_eval :
    (ChangeSet.from_change 11 (Change.insert' 5
      [' ', 'b', 'e', 'a', 'u', 't', 'i', 'f', 'u', 'l'])).map_pos 7 = 7 ∧
    (ChangeSet.from_change 11 (Change.delete 5 8)).map_pos 10 = 5 :=
  ⟨rfl, rfl⟩

/-- C7: a reachable selection on which a listed operation makes
`Selection::primary` index out of bounds.  Starting from `point(0)`,
adding cursors at 5 and 10, and selecting primary index 2, a
`replace` with a single range makes `normalize` read
`self.ranges[2]` from a one-element list — a panic in Rust, `none`
here. -/
theorem replace_primary_oob_eval :
    ((((Selection.point 0).add_cursor 5).bind fun s => s.add_cursor 10).bind
      fun s => (s.set_primary_idx 2).replace [Range.point 1]) = none :=
  rfl

/-- C9: `Document.undo` with an empty undo stack returns `false` and
returns the document unchanged — same buffer, selections, version,
modified flag and history stacks. -/
theorem undo_empty_history (d : Document) (v : ViewId)
    (h : d.history.undo_stack = []) :
    Document.undo d v = (false, d) := by
  unfold Document.undo History.undoPop
  rw [h]
  rfl

/-- Witness for C9 at a concrete document. -/
theorem undo_empty_history_witness :
    baseDoc.history.undo_stack = [] ∧ Document.undo baseDoc ⟨0⟩ = (false, baseDoc) :=
  ⟨rfl, undo_empty_history baseDoc ⟨0⟩ rfl⟩

/-- Every single `History` operation preserves the undo-stack bound. -/
theorem histStep_undo_le (h : History) (op : HistOp)
    (hle : h.undo_stack.length ≤ MAX_HISTORY_SIZE) :
    (histStep h op).undo_stack.length ≤ MAX_HISTORY_SIZE := by
  cases op with
  | push tx =>
      simp only [histStep, History.push]
      split
      · simp only [List.length_drop, List.length_append, List.length_singleton]
        omega
      · next hc =>
        simp only [List.length_append, List.length_singleton]
        simp only [not_lt, List.length_append, List.length_singleton] at hc
        omega
  | push_redo tx => simpa [histStep, History.push_redo] using hle
  | undoOp =>
      simp only [histStep, History.undoPop, List.length_dropLast]
      omega
  | redoOp => simpa [histStep, History.redoPop] using hle
  | clearOp => simp [histStep, History.clear, History.new]

/-- Folding `History` operations from a bounded state stays bounded. -/
theorem foldl_histStep_undo_le (ops : List HistOp) (h : History)
    (hle : h.undo_stack.length ≤ MAX_HISTORY_SIZE) :
    (ops.foldl histStep h).undo_stack.length ≤ MAX_HISTORY_SIZE := by
  induction ops generalizing h with
  | nil => simpa using hle
  | cons op rest ih =>
      simpa using ih (histStep h op) (histStep_undo_le h op hle)

/-- C8: for every sequence of `History` operations the undo stack holds at
most `MAX_HISTORY_SIZE = 1000` transactions; and `History::push` on a
bounded history clears the redo stack and keeps exactly the
`min(len + 1, 1000)` newest undo entries, dropping the oldest (front)
entry when the bound would be exceeded — the just-pushed transaction is
always kept at the back. -/
theorem history_bound_and_push_fifo :
    (∀ ops : List HistOp, (runHistory ops).undo_stack.length ≤ MAX_HISTORY_SIZE) ∧
    (∀ (h : History) (tx : Transaction), h.undo_stack.length ≤ MAX_HISTORY_SIZE →
      (h.push tx).redo_stack = [] ∧
      (h.push tx).undo_stack =
        (h.undo_stack ++ [tx]).drop (h.undo_stack.length + 1 - MAX_HISTORY_SIZE)) := by
  constructor
  · intro ops
    exact foldl_histStep_undo_le ops History.new (by simp [History.new])
  · intro h tx hle
    refine ⟨rfl, ?_⟩
    simp only [History.push]
    split
    · next hc =>
      simp only [List.length_append, List.length_singleton] at hc
      have : h.undo_stack.length + 1 - MAX_HISTORY_SIZE = 1 := by omega
      rw [this]
    · next hc =>
      simp only [not_lt, List.length_append, List.length_singleton] at hc
      have : h.undo_stack.length + 1 - MAX_HISTORY_SIZE = 0 := by omega
      rw [this, List.drop_zero]

/-- Witness for C8 at a concrete history and transaction. -/
theorem history_bound_and_push_fifo_witness :
    (runHistory [HistOp.push txA]).undo_stack.length ≤ MAX_HISTORY_SIZE ∧
    ((History.new.push txA).redo_stack = [] ∧
      (History.new.push txA).undo_stack =
        (History.new.undo_stack ++ [txA]).drop
          (History.new.undo_stack.length + 1 - MAX_HISTORY_SIZE)) :=
  ⟨history_bound_and_push_fifo.1 [HistOp.push txA],
   history_bound_and_push_fifo.2 History.new txA (by decide)⟩

/-- C10: `Document.apply` on a non-empty transaction changes only the
buffer, the invoking view's selection, the history, the version and the
modified flag: the id, path, line ending, encoding, language and
last-saved version are untouched, every other view's selection is
untouched, and the version counter grows by exactly one. -/
theorem apply_frame (d : Document) (tx : Transaction) (v v' : ViewId)
    (hne : tx.is_empty = false) (hv : v' ≠ v) :
    (Document.apply d tx v).2.id = d.id ∧
    (Document.apply d tx v).2.path = d.path ∧
    (Document.apply d tx v).2.line_ending = d.line_ending ∧
    (Document.apply d tx v).2.encoding = d.encoding ∧
    (Document.apply d tx v).2.language = d.language ∧
    (Document.apply d tx v).2.last_saved_version = d.last_saved_version ∧
    (Document.apply d tx v).2.version = d.version + 1 ∧
    (Document.apply d tx v).2.selections v' = d.selections v' := by
  simp only [Document.apply, hne, Bool.false_eq_true, if_false]
  cases tx.selection <;> simp [Document.set_selection, hv]

/-- Witness for C10 at a concrete document, transaction and views. -/
theorem apply_frame_witness :
    (txB.is_empty = false ∧ (⟨1⟩ : ViewId) ≠ (⟨0⟩ : ViewId)) ∧
    ((Document.apply baseDoc txB ⟨0⟩).2.id = baseDoc.id ∧
      (Document.apply baseDoc txB ⟨0⟩).2.path = baseDoc.path ∧
      (Document.apply baseDoc txB ⟨0⟩).2.line_ending = baseDoc.line_ending ∧
      (Document.apply baseDoc txB ⟨0⟩).2.encoding = baseDoc.encoding ∧
      (Document.apply baseDoc txB ⟨0⟩).2.language = baseDoc.language ∧
      (Document.apply baseDoc txB ⟨0⟩).2.last_saved_version = baseDoc.last_saved_version ∧
      (Document.apply baseDoc txB ⟨0⟩).2.version = baseDoc.version + 1 ∧
      (Document.apply baseDoc txB ⟨0⟩).2.selections ⟨1⟩ = baseDoc.selections ⟨1⟩) :=
  ⟨⟨rfl, by decide⟩, apply_frame baseDoc txB ⟨0⟩ ⟨1⟩ rfl (by decide)⟩

/-- Lower bound for the `map_pos` loop: a value below the running
`new_pos`, the running `pos` and the running `old_pos` stays below the
final result (deletions can only shrink `pos` down to `old_pos`). -/
theorem mapPosGo_lb (ops : List Operation) (old new pos m : Nat)
    (h1 : m ≤ new) (h2 : m ≤ pos) (h3 : m ≤ old) :
    m ≤ mapPosGo ops old new pos := by
  induction ops generalizing old new pos with
  | nil =>
      simp only [mapPosGo]
      omega
  | cons op rest ih =>
      cases op with
      | Retain n =>
          simp only [mapPosGo]
          split
          · omega
          · exact ih (old + n) (new + n) pos (by omega) h2 (by omega)
      | Insert t =>
          simp only [mapPosGo]
          split
          · omega
          · split
            · exact ih old (new + t.length) pos (by omega) h2 h3
            · exact ih old new pos h1 h2 h3
      | Delete n =>
          simp only [mapPosGo]
          split
          · omega
          · split
            · exact ih (old + n) new (pos - n) h1 (by omega) (by omega)
            · split
              · exact ih (old + n) new old h1 h3 (by omega)
              · exact ih (old + n) new pos h1 h2 (by omega)

/-- The `map_pos` loop is monotone in the position argument. -/
theorem mapPosGo_mono (ops : List Operation) (old new p q : Nat) (hpq : p ≤ q) :
    mapPosGo ops old new p ≤ mapPosGo ops old new q := by
  induction ops generalizing old new p q with
  | nil =>
      simp only [mapPosGo]
      omega
  | cons op rest ih =>
      by_cases hq : q < old
      · have hp : p < old := by omega
        simp only [mapPosGo, if_pos hp, if_pos hq]
        omega
      · by_cases hp : p < old
        · have hbreak : mapPosGo (op :: rest) old new p = min new p := by
            cases op <;> simp [mapPosGo, hp]
          rw [hbreak]
          exact mapPosGo_lb (op :: rest) old new q (min new p) (by omega) (by omega) (by omega)
        · cases op with
          | Retain n =>
              simp only [mapPosGo, if_neg hp, if_neg hq]
              exact ih (old + n) (new + n) p q hpq
          | Insert t =>
              simp only [mapPosGo, if_neg hp, if_neg hq]
              rw [if_pos (by omega : old ≤ p), if_pos (by omega : old ≤ q)]
              exact ih old (new + t.length) p q hpq
          | Delete n =>
              simp only [mapPosGo, if_neg hp, if_neg hq]
              split_ifs <;> exact ih (old + n) new _ _ (by omega)

/-- C5: for a fixed changeset, `map_pos` is monotone non-decreasing. -/
theorem map_pos_monotone (cs : ChangeSet) (p q : Nat) (h : p ≤ q) :
    cs.map_pos p ≤ cs.map_pos q :=
  mapPosGo_mono cs.ops 0 0 p q h

/-- Witness for C5 at a concrete changeset and positions. -/
theorem map_pos_monotone_witness :
    1 ≤ 2 ∧
    (ChangeSet.from_change 5 (Change.insert' 2 ['x'])).map_pos 1 ≤
      (ChangeSet.from_change 5 (Change.insert' 2 ['x'])).map_pos 2 :=
  ⟨by decide, map_pos_monotone (ChangeSet.from_change 5 (Change.insert' 2 ['x'])) 1 2 (by decide)⟩

/-- Consuming the optional leading retain of a `from_change` op list. -/
theorem applyGo_optRetain (s : Nat) (rest : List Operation) (l : List Char) :
    applyGo ((if 0 < s then [Operation.Retain s] else []) ++ rest) 0 l =
      applyGo rest s l := by
  split
  · simp [applyGo]
  · next h =>
    have hs : s = 0 := by omega
    subst hs
    simp

/-- Consuming the optional delete of a `from_change` op list. -/
theorem applyGo_optDelete (s e : Nat) (rest : List Operation) (l : List Char)
    (hse : s ≤ e) :
    applyGo ((if s < e then [Operation.Delete (e - s)] else []) ++ rest) s l =
      applyGo rest s (l.take s ++ l.drop e) := by
  by_cases h : s < e
  · rw [if_pos h]
    show applyGo rest s (ropeRemove l s (e - s)) = applyGo rest s (l.take s ++ l.drop e)
    simp only [ropeRemove]
    rw [Nat.add_sub_cancel' hse]
  · rw [if_neg h]
    have hs : s = e := by omega
    subst hs
    rw [List.nil_append, List.take_append_drop]

/-- Consuming the optional insert of a `from_change` op list. -/
theorem applyGo_optInsert (t : List Char) (pos : Nat) (rest : List Operation)
    (l : List Char) :
    applyGo ((if t ≠ [] then [Operation.Insert t] else []) ++ rest) pos l =
      applyGo rest (pos + t.length) (l.take pos ++ t ++ l.drop pos) := by
  by_cases h : t ≠ []
  · rw [if_pos h]
    simp [applyGo, ropeInsert]
  · rw [if_neg h]
    simp only [ne_eq, not_not] at h
    subst h
    rw [List.nil_append, List.append_nil, List.take_append_drop]
    simp

/-- The trailing optional retain never changes the buffer. -/
theorem applyGo_optRetainEnd (e n pos : Nat) (l : List Char) :
    applyGo (if e < n then [Operation.Retain (n - e)] else []) pos l = l := by
  split <;> simp [applyGo]

/-- Inverting the optional leading retain: retains invert to themselves. -/
theorem invertGo_optRetain (s : Nat) (rest : List Operation) (orig : List Char) :
    invertGo ((if 0 < s then [Operation.Retain s] else []) ++ rest) 0 orig =
      (if 0 < s then [Operation.Retain s] else []) ++ invertGo rest s orig := by
  by_cases h : 0 < s
  · rw [if_pos h]
    simp [invertGo]
  · rw [if_neg h]
    have hs : s = 0 := by omega
    subst hs
    simp

/-- Inverting the optional delete: it becomes an insert of the deleted
slice of the original buffer, and the source cursor moves to `e`. -/
theorem invertGo_optDelete (s e : Nat) (rest : List Operation) (orig : List Char)
    (hse : s ≤ e) :
    invertGo ((if s < e then [Operation.Delete (e - s)] else []) ++ rest) s orig =
      (if s < e then [Operation.Insert ((orig.drop s).take (e - s))] else []) ++
        invertGo rest e orig := by
  by_cases h : s < e
  · rw [if_pos h, if_pos h]
    show Operation.Insert ((orig.drop s).take (e - s)) :: invertGo rest (s + (e - s)) orig =
      Operation.Insert ((orig.drop s).take (e - s)) :: invertGo rest e orig
    rw [Nat.add_sub_cancel' hse]
  · rw [if_neg h, if_neg h]
    have hs : s = e := by omega
    subst hs
    rfl

/-- Inverting the optional insert: it becomes a delete of its length. -/
theorem invertGo_optInsert (t : List Char) (pos : Nat) (rest : List Operation)
    (orig : List Char) :
    invertGo ((if t ≠ [] then [Operation.Insert t] else []) ++ rest) pos orig =
      (if t ≠ [] then [Operation.Delete t.length] else []) ++ invertGo rest pos orig := by
  by_cases h : t ≠ []
  · rw [if_pos h, if_pos h]
    rfl
  · rw [if_neg h, if_neg h]
    rfl

/-- Inverting the trailing optional retain. -/
theorem invertGo_optRetainEnd (e n pos : Nat) (orig : List Char) :
    invertGo (if e < n then [Operation.Retain (n - e)] else []) pos orig =
      (if e < n then [Operation.Retain (n - e)] else []) := by
  by_cases h : e < n
  · rw [if_pos h]
    rfl
  · rw [if_neg h]
    rfl

/-- Applying `from_change(len(B), c)` to `B` replaces the chars in
`[start, end)` by the inserted text. -/
theorem from_change_apply (B : List Char) (c : Change)
    (h1 : c.start ≤ c.stop) (h2 : c.stop ≤ B.length) :
    (ChangeSet.from_change B.length c).apply B =
      B.take c.start ++ c.insert ++ B.drop c.stop := by
  obtain ⟨s, e, t⟩ := c
  have hs1 : s ≤ e := h1
  have hs2 : e ≤ B.length := h2
  have hA : (B.take s).length = s := by
    rw [List.length_take]
    omega
  simp only [ChangeSet.apply, ChangeSet.from_change, List.append_assoc]
  rw [applyGo_optRetain, applyGo_optDelete s e _ B hs1, applyGo_optInsert,
    applyGo_optRetainEnd, List.take_left' hA, List.drop_left' hA]
  simp [List.append_assoc]

/-- The op list of the inverse of a `from_change` changeset. -/
theorem from_change_invert_ops (B : List Char) (c : Change) (h1 : c.start ≤ c.stop) :
    ((ChangeSet.from_change B.length c).invert B).ops =
      (if 0 < c.start then [Operation.Retain c.start] else []) ++
      (if c.start < c.stop then
        [Operation.Insert ((B.drop c.start).take (c.stop - c.start))] else []) ++
      (if c.insert ≠ [] then [Operation.Delete c.insert.length] else []) ++
      (if c.stop < B.length then [Operation.Retain (B.length - c.stop)] else []) := by
  obtain ⟨s, e, t⟩ := c
  have hs1 : s ≤ e := h1
  simp only [ChangeSet.invert, ChangeSet.from_change, List.append_assoc]
  rw [invertGo_optRetain, invertGo_optDelete s e _ B hs1, invertGo_optInsert,
    invertGo_optRetainEnd]

/-- An optional insert op under an arbitrary guard. -/
theorem applyGo_ifInsert (c : Prop) [Decidable c] (t : List Char) (pos : Nat)
    (rest : List Operation) (l : List Char) :
    applyGo ((if c then [Operation.Insert t] else []) ++ rest) pos l =
      if c then applyGo rest (pos + t.length) (l.take pos ++ t ++ l.drop pos)
      else applyGo rest pos l := by
  by_cases h : c
  · rw [if_pos h, if_pos h]
    rfl
  · rw [if_neg h, if_neg h]
    rfl

/-- An optional delete op under an arbitrary guard. -/
theorem applyGo_ifDelete (c : Prop) [Decidable c] (n pos : Nat)
    (rest : List Operation) (l : List Char) :
    applyGo ((if c then [Operation.Delete n] else []) ++ rest) pos l =
      if c then applyGo rest pos (l.take pos ++ l.drop (pos + n))
      else applyGo rest pos l := by
  by_cases h : c
  · rw [if_pos h, if_pos h]
    rfl
  · rw [if_neg h, if_neg h]
    rfl

/-- C1: the undo round trip for single-change changesets.  For any buffer
`B` and change `c` with `start ≤ end ≤ len(B)`, applying
`C = from_change(len(B), c)` to `B` and then applying `C.invert(B)` to
the result restores `B` exactly. -/
theorem apply_invert_roundtrip (B : List Char) (c : Change)
    (h1 : c.start ≤ c.stop) (h2 : c.stop ≤ B.length) :
    ((ChangeSet.from_change B.length c).invert B).apply
      ((ChangeSet.from_change B.length c).apply B) = B := by
  obtain ⟨s, e, t⟩ := c
  have hs1 : s ≤ e := h1
  have hs2 : e ≤ B.length := h2
  have hA : (B.take s).length = s := by
    rw [List.length_take]
    omega
  have hSl : ((B.drop s).take (e - s)).length = e - s := by
    rw [List.length_take, List.length_drop]
    omega
  have hAS : (B.take s ++ (B.drop s).take (e - s)).length = e := by
    rw [List.length_append, hA, hSl]
    omega
  have hASval : B.take s ++ (B.drop s).take (e - s) = B.take e := by
    rw [← List.take_add]
    congr 1
    omega
  rw [from_change_apply B ⟨s, e, t⟩ h1 h2]
  show applyGo ((ChangeSet.from_change B.length ⟨s, e, t⟩).invert B).ops 0
      (B.take s ++ t ++ B.drop e) = B
  rw [from_change_invert_ops B ⟨s, e, t⟩ h1]
  simp only [List.append_assoc]
  rw [applyGo_optRetain, applyGo_ifInsert]
  by_cases hse : s < e <;> by_cases ht : t ≠ []
  · -- delete and insert both present in the original change
    rw [if_pos hse, applyGo_ifDelete, if_pos ht, applyGo_optRetainEnd]
    rw [List.take_left' hA, List.drop_left' hA, hSl,
      show s + (e - s) = e from by omega]
    have hrope : B.take s ++ (B.drop s).take (e - s) ++ (t ++ B.drop e) =
        (B.take s ++ (B.drop s).take (e - s)) ++ (t ++ B.drop e) := rfl
    rw [hrope, List.take_left' hAS, ← List.drop_drop, List.drop_left' hAS,
      List.drop_left, hASval, List.take_append_drop]
  · -- delete present, no inserted text
    simp only [ne_eq, not_not] at ht
    subst ht
    rw [if_pos hse, applyGo_ifDelete, if_neg (by simp), applyGo_optRetainEnd]
    simp only [List.nil_append]
    rw [List.take_left' hA, List.drop_left' hA]
    have hrope : B.take s ++ (B.drop s).take (e - s) ++ B.drop e =
        (B.take s ++ (B.drop s).take (e - s)) ++ B.drop e := rfl
    rw [hrope, hASval, List.take_append_drop]
  · -- no delete, insert present
    have hseq : s = e := by omega
    subst hseq
    rw [if_neg (by omega), applyGo_ifDelete, if_pos ht, applyGo_optRetainEnd]
    rw [List.take_left' hA, ← List.drop_drop, List.drop_left' hA,
      List.drop_left, List.take_append_drop]
  · -- neither delete nor insert
    simp only [ne_eq, not_not] at ht
    subst ht
    have hseq : s = e := by omega
    subst hseq
    rw [if_neg (by omega), applyGo_ifDelete, if_neg (by simp), applyGo_optRetainEnd]
    simp only [List.nil_append]
    rw [List.take_append_drop]

/-- Witness for C1 at a concrete buffer and change. -/
theorem apply_invert_roundtrip_witness :
    ((1 ≤ 2 ∧ 2 ≤ (['a', 'b', 'c'] : List Char).length) ∧
      ((ChangeSet.from_change (['a', 'b', 'c'] : List Char).length
          { start := 1, stop := 2, insert := ['x'] }).invert ['a', 'b', 'c']).apply
        ((ChangeSet.from_change (['a', 'b', 'c'] : List Char).length
          { start := 1, stop := 2, insert := ['x'] }).apply ['a', 'b', 'c']) = ['a', 'b', 'c']) :=
  ⟨⟨by decide, by decide⟩,
   apply_invert_roundtrip ['a', 'b', 'c'] { start := 1, stop := 2, insert := ['x'] }
     (by decide) (by decide)⟩

/-- `start() ≤ end()` for every range. -/
theorem range_start_le_stop (r : Range) : r.start ≤ r.stop := by
  unfold Range.start Range.stop
  omega

/-- A range's head lies at or after its start. -/
theorem range_start_le_head (r : Range) : r.start ≤ r.head :=
  min_le_right r.anchor r.head

/-- The sort key order is total. -/
theorem keyLe_total (a b : Range) : keyLe a b ∨ keyLe b a := by
  unfold keyLe
  omega

/-- The sort key order is transitive. -/
theorem keyLe_trans (a b c : Range) (h1 : keyLe a b) (h2 : keyLe b c) : keyLe a c := by
  unfold keyLe at *
  omega

/-- The sort key order compares starts first. -/
theorem keyLe_start_le (a b : Range) (h : keyLe a b) : a.start ≤ b.start := by
  unfold keyLe at h
  omega

/-- Separated ranges are also key-ordered. -/
theorem sep_imp_keyLe (a b : Range) (h : sep a b) : keyLe a b := by
  have := range_start_le_stop a
  unfold sep at h
  unfold keyLe
  omega

/-- Membership through a stable insertion. -/
theorem mem_insertRange (r x : Range) (l : List Range) :
    x ∈ insertRange r l ↔ x = r ∨ x ∈ l := by
  induction l with
  | nil => simp [insertRange]
  | cons y ys ih =>
      unfold insertRange
      split
      · exact List.mem_cons
      · simp only [List.mem_cons, ih]
        tauto

/-- Stable insertion preserves key-sortedness. -/
theorem insertRange_pairwise (r : Range) (l : List Range)
    (h : List.Pairwise keyLe l) : List.Pairwise keyLe (insertRange r l) := by
  induction l with
  | nil => simp [insertRange]
  | cons y ys ih =>
      obtain ⟨hy, hys⟩ := List.pairwise_cons.mp h
      unfold insertRange
      split
      · next hk =>
        refine List.pairwise_cons.mpr ⟨fun z hz => ?_, h⟩
        rcases List.mem_cons.mp hz with rfl | hzys
        · exact hk
        · exact keyLe_trans r y z hk (hy z hzys)
      · next hk =>
        have hyr : keyLe y r := (keyLe_total r y).resolve_left hk
        refine List.pairwise_cons.mpr ⟨fun z hz => ?_, ih hys⟩
        rcases (mem_insertRange r z ys).mp hz with rfl | hzys
        · exact hyr
        · exact hy z hzys

/-- The stable sort produces a key-sorted list. -/
theorem sortRanges_pairwise (l : List Range) : List.Pairwise keyLe (sortRanges l) := by
  induction l with
  | nil => simp [sortRanges]
  | cons x xs ih => exact insertRange_pairwise x (sortRanges xs) ih

/-- Inserting below every element is a cons. -/
theorem insertRange_sorted_eq (x : Range) (l : List Range)
    (hx : ∀ z ∈ l, keyLe x z) : insertRange x l = x :: l := by
  cases l with
  | nil => rfl
  | cons y ys =>
      unfold insertRange
      rw [if_pos (hx y (List.mem_cons_self y ys))]

/-- Sorting an already key-sorted list is the identity (the sort is
stable, so nothing moves). -/
theorem sortRanges_sorted_eq (l : List Range) (h : List.Pairwise keyLe l) :
    sortRanges l = l := by
  induction l with
  | nil => rfl
  | cons x xs ih =>
      obtain ⟨hx, hxs⟩ := List.pairwise_cons.mp h
      show insertRange x (sortRanges xs) = x :: xs
      rw [ih hxs, insertRange_sorted_eq x xs hx]

/-- Stable insertion adds one element. -/
theorem insertRange_length (r : Range) (l : List Range) :
    (insertRange r l).length = l.length + 1 := by
  induction l with
  | nil => rfl
  | cons y ys ih =>
      unfold insertRange
      split
      · rfl
      · simp [List.length_cons, ih]

/-- Sorting preserves length. -/
theorem sortRanges_length (l : List Range) : (sortRanges l).length = l.length := by
  induction l with
  | nil => rfl
  | cons x xs ih =>
      show (insertRange x (sortRanges xs)).length = (x :: xs).length
      rw [insertRange_length, ih, List.length_cons]

/-- Ranges that fail to merge, with the left one starting first, are
strictly separated. -/
theorem merge_none_sep (x r : Range) (hxr : x.start ≤ r.start)
    (hm : Range.merge x r = none) : sep x r := by
  have h1 := range_start_le_stop r
  unfold Range.merge at hm
  unfold sep
  split at hm
  · exact absurd hm (by simp)
  · next hc => omega

/-- A successful merge, with the left range starting first, starts where
the left range starts. -/
theorem merge_some_start (x r : Range) (hxr : x.start ≤ r.start) (m : Range)
    (hm : Range.merge x r = some m) : m.start = x.start := by
  have h1 := range_start_le_stop x
  have h2 := range_start_le_stop r
  unfold Range.merge at hm
  split at hm
  · injection hm with hm'
    subst hm'
    show min (min x.start r.start) (max x.stop r.stop) = x.start
    omega
  · exact absurd hm (by simp)

/-- The merge scan never returns an empty list once one range is kept. -/
theorem mergeScan_cons_ne_nil (l : List Range) : ∀ (x : Range) (acc : List Range),
    mergeScan (x :: acc) l ≠ [] := by
  induction l with
  | nil =>
      intro x acc
      show (x :: acc).reverse ≠ []
      simp
  | cons r rest ih =>
      intro x acc
      unfold mergeScan
      cases hm : Range.merge x r with
      | some m => simpa only [hm] using ih m acc
      | none => simpa only [hm] using ih r (x :: acc)

/-- The merge scan on a nonempty list is nonempty. -/
theorem mergeScan_nil_ne_nil (l : List Range) (h : l ≠ []) : mergeScan [] l ≠ [] := by
  cases l with
  | nil => exact absurd rfl h
  | cons a as => exact mergeScan_cons_ne_nil as a []

/-- On a separated list the merge scan merges nothing: it only moves the
input into the accumulator. -/
theorem mergeScan_chain_eq (l : List Range) : ∀ (x : Range) (acc : List Range),
    List.Chain' sep (x :: l) → mergeScan (x :: acc) l = (x :: acc).reverse ++ l := by
  induction l with
  | nil =>
      intro x acc _
      show (x :: acc).reverse = (x :: acc).reverse ++ []
      simp
  | cons r rest ih =>
      intro x acc hch
      obtain ⟨hxr, hch'⟩ := List.chain'_cons.mp hch
      have hmerge : Range.merge x r = none := by
        unfold Range.merge
        rw [if_neg]
        intro hc
        unfold sep at hxr
        omega
      unfold mergeScan
      rw [hmerge]
      rw [ih r (x :: acc) hch']
      simp

/-- The merge scan fixes separated lists. -/
theorem mergeScan_sep_id (m : List Range) (hch : List.Chain' sep m) :
    mergeScan [] m = m := by
  cases m with
  | nil => rfl
  | cons r rest =>
      show mergeScan [r] rest = r :: rest
      rw [mergeScan_chain_eq rest r [] hch]
      rfl

/-- The merge scan's output is separated, given key-sorted input whose
heads all start at or after the accumulated head range. -/
theorem mergeScan_chain_sep (l : List Range) : ∀ (x : Range) (acc : List Range),
    (∀ r ∈ l, x.start ≤ r.start) → List.Pairwise keyLe l →
    List.Chain' (flip sep) (x :: acc) →
    List.Chain' sep (mergeScan (x :: acc) l) := by
  induction l with
  | nil =>
      intro x acc _ _ hch
      show List.Chain' sep (x :: acc).reverse
      exact List.chain'_reverse.mpr hch
  | cons r rest ih =>
      intro x acc hstart hpw hch
      obtain ⟨hhead, htail⟩ := List.pairwise_cons.mp hpw
      have hxr : x.start ≤ r.start := hstart r (List.mem_cons_self r rest)
      unfold mergeScan
      cases hm : Range.merge x r with
      | some m =>
          have hms : m.start = x.start := merge_some_start x r hxr m hm
          simp only [hm]
          apply ih m acc
          · intro r' hr'
            rw [hms]
            exact hstart r' (List.mem_cons_of_mem r hr')
          · exact htail
          · cases acc with
            | nil => exact List.chain'_singleton m
            | cons y acc' =>
                obtain ⟨hxy, hch'⟩ := List.chain'_cons.mp hch
                refine List.chain'_cons.mpr ⟨?_, hch'⟩
                have hyx : y.stop < x.start := hxy
                show sep y m
                unfold sep
                omega
      | none =>
          have hsep : sep x r := merge_none_sep x r hxr hm
          simp only [hm]
          apply ih r (x :: acc)
          · intro r' hr'
            exact keyLe_start_le r r' (hhead r' hr')
          · exact htail
          · exact List.chain'_cons.mpr ⟨hsep, hch⟩

/-- The merge scan of any key-sorted list is separated. -/
theorem mergeScan_sorted_chain (l : List Range) (h : List.Pairwise keyLe l) :
    List.Chain' sep (mergeScan [] l) := by
  cases l with
  | nil => exact List.chain'_nil
  | cons r rest =>
      obtain ⟨hhead, htail⟩ := List.pairwise_cons.mp h
      show List.Chain' sep (mergeScan [r] rest)
      exact mergeScan_chain_sep rest r []
        (fun r' hr' => keyLe_start_le r r' (hhead r' hr')) htail (List.chain'_singleton r)

/-- A found position is in bounds. -/
theorem rangePosition_lt (p : Range → Bool) (l : List Range) :
    ∀ j, rangePosition p l = some j → j < l.length := by
  induction l with
  | nil =>
      intro j h
      exact absurd h (by simp [rangePosition])
  | cons r rest ih =>
      intro j h
      unfold rangePosition at h
      split at h
      · injection h with h'
        subst h'
        simp
      · cases hr : rangePosition p rest with
        | none =>
            rw [hr] at h
            exact absurd h (by simp)
        | some k =>
            rw [hr] at h
            simp only [Option.map_some'] at h
            injection h with h'
            subst h'
            have := ih k hr
            simp only [List.length_cons]
            omega

/-- `position` finds exactly the first index whose element satisfies the
predicate. -/
theorem rangePosition_eq_some (p : Range → Bool) (l : List Range) :
    ∀ (i : Nat) (a : Range), l.get? i = some a → p a = true →
    (∀ k, k < i → ∀ b, l.get? k = some b → p b = false) →
    rangePosition p l = some i := by
  induction l with
  | nil =>
      intro i a h _ _
      exact absurd h (by simp)
  | cons r rest ih =>
      intro i a hget hpa hk
      cases i with
      | zero =>
          have ha : a = r := by
            simp only [List.get?] at hget
            exact (Option.some.inj hget).symm
          subst ha
          unfold rangePosition
          rw [if_pos hpa]
      | succ i' =>
          have hpr : p r = false := hk 0 (Nat.succ_pos i') r rfl
          unfold rangePosition
          rw [if_neg (by simp [hpr])]
          rw [ih i' a hget hpa fun k hki b hb => hk (k + 1) (by omega) b hb]
          rfl

/-- Every selection `normalize` produces has nonempty, separated ranges
and an in-bounds primary index. -/
theorem normalize_output (s t : Selection) (h : s.normalize = some t) :
    t.ranges ≠ [] ∧ List.Chain' sep t.ranges ∧ t.primary_idx < t.ranges.length := by
  unfold Selection.normalize at h
  split at h
  · injection h with h'
    subst h'
    exact ⟨by simp, List.chain'_singleton _, by simp⟩
  · next hemp =>
    dsimp only at h
    have hsne : s.ranges ≠ [] := by
      intro hnil
      exact hemp (by rw [hnil]; rfl)
    have hsortne : sortRanges s.ranges ≠ [] := by
      intro hnil
      apply hsne
      have hlen := sortRanges_length s.ranges
      rw [hnil] at hlen
      exact List.length_eq_zero.mp hlen.symm
    cases hg : (sortRanges s.ranges).get? s.primary_idx with
    | none =>
        rw [hg] at h
        exact absurd h (by simp)
    | some pr =>
        rw [hg] at h
        simp only at h
        injection h with h'
        subst h'
        refine ⟨mergeScan_nil_ne_nil _ hsortne,
          mergeScan_sorted_chain _ (sortRanges_pairwise _), ?_⟩
        cases hp : rangePosition (normPred pr) (mergeScan [] (sortRanges s.ranges)) with
        | none =>
            simp only [hp, Option.getD_none]
            exact List.length_pos.mpr (mergeScan_nil_ne_nil _ hsortne)
        | some j =>
            simp only [hp, Option.getD_some]
            exact rangePosition_lt _ _ j hp

/-- `normalize` fixes any selection whose ranges are separated and whose
primary index is in bounds: the sort, the merge scan and the primary
recomputation all leave it unchanged. -/
theorem normalize_fixed (m : List Range) (i : Nat)
    (hch : List.Chain' sep m) (hi : i < m.length) :
    Selection.normalize ⟨m, i⟩ = some ⟨m, i⟩ := by
  have hmne : m ≠ [] := by
    intro h
    rw [h] at hi
    simp at hi
  have hpsep : List.Pairwise sep m := List.chain'_iff_pairwise.mp hch
  have hpkey : List.Pairwise keyLe m := hpsep.imp fun {a b} h => sep_imp_keyLe a b h
  have hsort : sortRanges m = m := sortRanges_sorted_eq m hpkey
  have hmerge : mergeScan [] m = m := mergeScan_sep_id m hch
  have hpos : rangePosition (normPred (m.get ⟨i, hi⟩)) m = some i := by
    apply rangePosition_eq_some _ _ i (m.get ⟨i, hi⟩) (List.get?_eq_get hi) ?_ ?_
    · simp [normPred]
    · intro k hki b hb
      have hkm : k < m.length := by omega
      have hbv : b = m.get ⟨k, hkm⟩ := by
        rw [List.get?_eq_get hkm] at hb
        exact (Option.some.inj hb).symm
      subst hbv
      have hsepkb : sep (m.get ⟨k, hkm⟩) (m.get ⟨i, hi⟩) :=
        List.pairwise_iff_get.mp hpsep ⟨k, hkm⟩ ⟨i, hi⟩ hki
      have h1 : (m.get ⟨i, hi⟩).start ≤ (m.get ⟨i, hi⟩).head :=
        range_start_le_head _
      have h2 := range_start_le_stop (m.get ⟨i, hi⟩)
      unfold sep at hsepkb
      simp only [normPred, Range.containsPos, Bool.or_eq_false_iff,
        Bool.and_eq_false_iff, decide_eq_false_iff_not]
      refine ⟨Or.inr ?_, ?_⟩
      · omega
      · intro heq
        rw [heq] at hsepkb
        omega
  unfold Selection.normalize
  rw [if_neg (by simp [List.isEmpty_iff]; exact hmne)]
  simp only [hsort, hmerge]
  rw [List.get?_eq_get hi]
  simp only [hmerge, hpos, Option.getD_some]

/-- C6: `Selection::normalize` is idempotent — normalizing the result of
a normalization returns it unchanged (and a normalization that panics is
a panic either way). -/
theorem normalize_idempotent (s : Selection) :
    (Selection.normalize s).bind Selection.normalize = Selection.normalize s := by
  cases h : Selection.normalize s with
  | none => rfl
  | some t =>
      obtain ⟨_, hch, hlt⟩ := normalize_output s t h
      show Selection.normalize t = some t
      obtain ⟨m, i⟩ := t
      exact normalize_fixed m i hch hlt

end Lite
